import Mathlib

/-!
Shallow embedding of the n-gram extraction engine of `yara-gen`
(`src/yara_gen/extraction/ngram.py`, `NgramExtractor`), together with the
configuration model (`src/yara_gen/models/config.py`) and the small pieces of
the data model the engine needs.  Floats are embedded as rationals, the
scikit-learn `CountVectorizer` (word analyzer, `lowercase=True`,
`binary=True`, `min_df=0.01`, `ngram_range=(min_ngram_length,
max_ngram_length)`) is embedded by its documented semantics: lowercase the
document, tokenize on runs of word characters of length at least two
(token pattern `\b\w\w+\b`), enumerate contiguous token windows joined by a
single space, build the alphabetically sorted vocabulary of n-grams of the
fitted corpus, and prune features whose document count is below
`min_df * n_docs`.
-/

namespace YaraGen

/-- Configuration of the n-gram engine, from `NgramEngineConfig` /
`BaseEngineConfig` in `src/yara_gen/models/config.py`.  Floats become `ℚ`. -/
structure NgramConfig where
  score_threshold : ℚ
  max_rules_per_run : Nat
  rule_date : Option String
  min_ngram_length : Nat
  max_ngram_length : Nat
  benign_penalty_weight : ℚ
  min_document_frequency : ℚ
deriving DecidableEq, Repr

/-- Modelled from the spec: `TextSample` (§3) lives in `yara_gen/models/text.py`,
which is not part of the sources; the spec records it as
`{text, source, dataset_type, metadata}`.  Only `text` and `source` are read by
the engine. -/
structure TextSample where
  text : String
  source : String
deriving DecidableEq, Repr

/-- Modelled from the spec: `GeneratedRule` as produced by
`RuleBuilder.build_from_ngram` (`yara_gen/generation/builder.py`, not part of
the sources).  Per §4.5 the builder is a pure mapping, one candidate to one
rule, attaching the phrase, its score, the provenance source identifier and
the configured rule date. -/
structure GeneratedRule where
  text : String
  score : ℚ
  source : String
  rule_date : Option String
deriving DecidableEq, Repr

/-- Modelled from the spec: `RuleBuilder.build_from_ngram` (§4.5), a pure
mapping from one surviving candidate to one rule record. -/
def build_from_ngram (text : String) (score : ℚ) (source : String)
    (rule_date : Option String) : GeneratedRule :=
  ⟨text, score, source, rule_date⟩

/-- A word character for the `CountVectorizer` token pattern `\w`. -/
def isWordChar (c : Char) : Bool := c.isAlphanum || c == '_'

/-- Splits a character list into maximal runs of word characters (the
accumulator holds the current run, reversed). -/
def wordRuns : List Char → List Char → List (List Char)
  | [], cur => if cur.isEmpty then [] else [cur.reverse]
  | c :: cs, cur =>
    if isWordChar c then wordRuns cs (c :: cur)
    else if cur.isEmpty then wordRuns cs []
    else cur.reverse :: wordRuns cs []

/-- Tokenization of `CountVectorizer(analyzer="word", lowercase=True)`:
lowercase, then keep the maximal word-character runs of length ≥ 2
(token pattern `(?u)\b\w\w+\b`). -/
def wordTokens (s : String) : List String :=
  ((wordRuns (s.toList.map Char.toLower) []).filter (fun t => 2 ≤ t.length)).map
    (fun t => String.mk t)

/-- Number of tokens of a phrase (the spec's `token_length` of a candidate). -/
def tokenCount (s : String) : Nat := (wordTokens s).length

/-- All contiguous windows of length `n` of a token list. -/
def windows (n : Nat) (ts : List String) : List (List String) :=
  (List.range (ts.length + 1 - n)).map (fun i => (ts.drop i).take n)

/-- The n-grams of a document for `ngram_range = (lo, hi)`: every contiguous
token window of length `lo ≤ n ≤ hi`, joined by a single space, in the
enumeration order of `CountVectorizer._word_ngrams`. -/
def ngramsOf (lo hi : Nat) (s : String) : List String :=
  let ts := wordTokens s
  (List.range' lo (hi + 1 - lo)).flatMap
    (fun n => (windows n ts).map (fun w => String.intercalate " " w))

/-- Number of documents of `docs` containing the phrase `p` (a column sum of
the binary count matrix). -/
def docCount (lo hi : Nat) (docs : List String) (p : String) : Nat :=
  (docs.filter (fun d => (ngramsOf lo hi d).contains p)).length

/-- Code-point lexicographic order on character lists (Python string `<`). -/
def charsLt : List Char → List Char → Bool
  | [], [] => false
  | [], _ :: _ => true
  | _ :: _, [] => false
  | a :: as, b :: bs => if a < b then true else if b < a then false else charsLt as bs

/-- Inserts a string into a sorted duplicate-free list, keeping it sorted and
duplicate-free. -/
def insertStr (s : String) : List String → List String
  | [] => [s]
  | x :: xs =>
    if s == x then x :: xs
    else if charsLt s.toList x.toList then s :: x :: xs
    else x :: insertStr s xs

/-- The alphabetically sorted vocabulary of all n-grams of the fitted corpus
(`CountVectorizer` builds the vocabulary during `fit_transform` and sorts the
feature names). -/
def sortedVocab (lo hi : Nat) (docs : List String) : List String :=
  (docs.flatMap (ngramsOf lo hi)).foldl (fun acc s => insertStr s acc) []

/-- The feature names surviving `min_df = 0.01`: vocabulary entries whose
document count is at least `0.01 * n_docs` (scikit-learn keeps a term iff its
document frequency is not strictly lower than the threshold).  Note the
engine hard-codes `min_df=0.01` in `NgramExtractor.extract`. -/
def featureNames (lo hi : Nat) (docs : List String) : List String :=
  (sortedVocab lo hi docs).filter
    (fun p => (1 : ℚ) / 100 * docs.length ≤ (docCount lo hi docs p : ℚ))

/-- Adversarial document frequency of a phrase:
`(# adversarial docs containing phrase) / n_adv`. -/
def advDocFreq (lo hi : Nat) (docs : List String) (p : String) : ℚ :=
  (docCount lo hi docs p : ℚ) / (docs.length : ℚ)

/-- Benign document frequency in the spec's words (§4.2):
`(# benign docs containing phrase) / max(n_benign, 1)`. -/
def benDocFreq (lo hi : Nat) (docs : List String) (p : String) : ℚ :=
  (docCount lo hi docs p : ℚ) / (max docs.length 1 : ℚ)

/-- The differential score of one feature, from `NgramExtractor.extract`
steps 3–4: `n_benign = len(benign_texts) if benign_texts else 1`, the benign
counts are all zero when no benign texts are supplied, and
`scores = freq_adv - benign_penalty_weight * freq_benign`. -/
def scoreOf (cfg : NgramConfig) (advTexts benTexts : List String) (p : String) : ℚ :=
  let lo := cfg.min_ngram_length
  let hi := cfg.max_ngram_length
  let nB : ℚ := if benTexts.isEmpty then 1 else (benTexts.length : ℚ)
  let bCount : ℚ := if benTexts.isEmpty then 0 else (docCount lo hi benTexts p : ℚ)
  (docCount lo hi advTexts p : ℚ) / (advTexts.length : ℚ)
    - cfg.benign_penalty_weight * (bCount / nB)

/-- A scored candidate (the dicts built in `NgramExtractor.extract` step 4;
the `original_index` pointer is replaced by the phrase text itself, which
identifies the feature column uniquely). -/
structure Candidate where
  text : String
  score : ℚ
deriving DecidableEq, Repr

/-- The candidates passing the score threshold, in feature (alphabetical)
order: `threshold_mask = scores >= score_threshold`. -/
def candidatesOf (cfg : NgramConfig) (advTexts benTexts : List String) :
    List Candidate :=
  (featureNames cfg.min_ngram_length cfg.max_ngram_length advTexts).filterMap
    (fun p =>
      let s := scoreOf cfg advTexts benTexts p
      if cfg.score_threshold ≤ s then some ⟨p, s⟩ else none)

/-- Python's `a in b` on strings: `a` occurs as a contiguous substring of
`b`. -/
def substrB (a b : String) : Bool :=
  let al := a.toList
  let bl := b.toList
  (List.range (bl.length + 1)).any (fun i => ((bl.drop i).take al.length) == al)

/-- One insertion step of the stable sort by descending character length of
the candidate text: the new element is placed after every element of strictly
greater length and before the first element of smaller or equal length
(this is extensionally Python's stable `sorted(key=len(text), reverse=True)`
used in `NgramExtractor._filter_subsumed`). -/
def insertByLen (c : Candidate) : List Candidate → List Candidate
  | [] => [c]
  | x :: xs =>
    if c.text.length < x.text.length then x :: insertByLen c xs
    else c :: x :: xs

/-- Stable sort of the candidate list by descending character length of the
phrase text (`sorted(candidates, key=lambda x: len(x["text"]), reverse=True)`
in `NgramExtractor._filter_subsumed`). -/
def sortByLenDesc : List Candidate → List Candidate
  | [] => []
  | c :: cs => insertByLen c (sortByLenDesc cs)

/-- The inner check of `NgramExtractor._filter_subsumed`: a candidate is
subsumed iff some already-kept candidate contains its text as a substring and
has a score of at least 95% of its own
(`long_cand["score"] >= short_cand["score"] * 0.95`). -/
def subsumedBy (c : Candidate) (kept : List Candidate) : Bool :=
  kept.any (fun k => substrB c.text k.text && (c.score * (95 / 100) ≤ k.score))

/-- The accepting walk of `NgramExtractor._filter_subsumed`: process the
sorted candidates in order, appending each one that is not subsumed by the
kept list so far. -/
def filterSubsumedAux : List Candidate → List Candidate → List Candidate
  | [], kept => kept
  | c :: cs, kept =>
    if subsumedBy c kept then filterSubsumedAux cs kept
    else filterSubsumedAux cs (kept ++ [c])

/-- `NgramExtractor._filter_subsumed`: sort by length descending, then drop
every candidate subsumed by an already-accepted one. -/
def filterSubsumed (cands : List Candidate) : List Candidate :=
  filterSubsumedAux (sortByLenDesc cands) []

/-- `np.sum(hits & current_uncovered)`: the number of positions covered by
the candidate's presence vector that are still uncovered. -/
def newHits (uncov v : List Bool) : Nat :=
  (List.zipWith (fun h u => h && u) v uncov).count true

/-- The inner argmax loop of `NgramExtractor._greedy_set_cover`: walk the
candidate indices in order, skip the already-selected ones, and replace the
running best only on a strictly larger count of new hits
(`if new_hits > best_new_coverage`).  The accumulator starts at
`(best_candidate_idx, best_new_coverage) = (-1, 0)`, embedded as
`(none, 0)`. -/
def pickAux (vecs : List (List Bool)) (skip : List Nat) (uncov : List Bool) :
    List Nat → Option Nat × Nat → Option Nat × Nat
  | [], acc => acc
  | i :: is, acc =>
    if skip.contains i then pickAux vecs skip uncov is acc
    else if acc.2 < newHits uncov (vecs.getD i []) then
      pickAux vecs skip uncov is (some i, newHits uncov (vecs.getD i []))
    else pickAux vecs skip uncov is acc

/-- One round's argmax over all candidate indices. -/
def pickBest (vecs : List (List Bool)) (skip : List Nat) (uncov : List Bool) :
    Option Nat × Nat :=
  pickAux vecs skip uncov (List.range vecs.length) (none, 0)

/-- Pointwise disjunction of two boolean vectors
(`covered_mask | candidate_vectors[i]`). -/
def zipOr (a b : List Bool) : List Bool := List.zipWith (fun x y => x || y) a b

/-- The main loop of `NgramExtractor._greedy_set_cover`, fuelled by the
hard-coded `MAX_RULES = 50` rounds: stop early when every sample is covered
or when no remaining candidate newly covers a sample, otherwise commit the
winner and mark its samples covered. -/
def coverLoop (vecs : List (List Bool)) : Nat → List Bool → List Nat → List Nat
  | 0, _, sel => sel
  | fuel + 1, covered, sel =>
    if covered.all (fun b => b) then sel
    else
      match pickBest vecs sel (covered.map (fun b => !b)) with
      | (none, _) => sel
      | (some i, cov) =>
        if cov = 0 then sel
        else coverLoop vecs fuel (zipOr covered (vecs.getD i [])) (sel ++ [i])

/-- `NgramExtractor._greedy_set_cover`: returns the selected candidates in
selection order (`MAX_RULES = 50` is the hard-coded round cap). -/
def greedySetCover (cands : List Candidate) (vecs : List (List Bool))
    (totalSamples : Nat) : List Candidate :=
  (coverLoop vecs 50 (List.replicate totalSamples false) []).filterMap
    (fun i => cands.get? i)

/-- The presence vectors of the kept candidates: for each candidate, the
boolean column of the binary adversarial count matrix
(`X_adv[:, col_idx].toarray().flatten().astype(bool)`). -/
def presenceVectors (cfg : NgramConfig) (advTexts : List String)
    (cands : List Candidate) : List (List Bool) :=
  cands.map (fun c =>
    advTexts.map (fun d =>
      (ngramsOf cfg.min_ngram_length cfg.max_ngram_length d).contains c.text))

/-- `NgramExtractor.extract`: the full pipeline.  The empty-adversarial case
returns `[]` after a logged warning (lines 92–94); an empty feature set
models the caught `ValueError` of the vectorizer (lines 116–122); an empty
candidate list returns `[]` (lines 167–168). -/
def extract (cfg : NgramConfig) (adversarial benign : List TextSample) :
    List GeneratedRule :=
  let advTexts := adversarial.map (fun s => s.text)
  let benTexts := benign.map (fun s => s.text)
  let source_name := match adversarial with
    | [] => "unknown_source"
    | s :: _ => s.source
  if advTexts.length = 0 then []
  else
    let feats := featureNames cfg.min_ngram_length cfg.max_ngram_length advTexts
    if feats.isEmpty then []
    else
      let cands := candidatesOf cfg advTexts benTexts
      if cands.isEmpty then []
      else
        let kept := filterSubsumed cands
        let sel := greedySetCover kept (presenceVectors cfg advTexts kept)
          advTexts.length
        sel.map (fun c => build_from_ngram c.text c.score source_name cfg.rule_date)

/-! Concrete inputs used by counterexamples and witnesses. -/

/-- A configuration with a rule cap of 1 (3-grams only, strict threshold). -/
def cfgCap1 : NgramConfig :=
  { score_threshold := 1 / 10, max_rules_per_run := 1, rule_date := none,
    min_ngram_length := 3, max_ngram_length := 3,
    benign_penalty_weight := 1, min_document_frequency := 1 / 100 }

/-- A configuration asking for a 90% minimum document frequency. -/
def cfgFreq90 : NgramConfig :=
  { score_threshold := 1 / 10, max_rules_per_run := 50, rule_date := none,
    min_ngram_length := 3, max_ngram_length := 3,
    benign_penalty_weight := 1, min_document_frequency := 9 / 10 }

/-- A configuration with penalty weight 1/2 and threshold 0. -/
def cfgHalfPen : NgramConfig :=
  { score_threshold := 0, max_rules_per_run := 50, rule_date := none,
    min_ngram_length := 3, max_ngram_length := 3,
    benign_penalty_weight := 1 / 2, min_document_frequency := 1 / 100 }

/-- Two adversarial samples with disjoint 3-grams. -/
def advTwo : List TextSample := [⟨"aa bb cc", "s1"⟩, ⟨"dd ee ff", "s2"⟩]

/-- The texts of `advTwo`. -/
def advTwoTexts : List String := ["aa bb cc", "dd ee ff"]

/-- A single adversarial sample. -/
def advOne : List TextSample := [⟨"aa bb cc", "s"⟩]

/-- A benign sample containing the only adversarial 3-gram of `advOne`. -/
def benCover : List TextSample := [⟨"xx aa bb cc", "b"⟩]

/-- Candidates exercising the subsumption-sort key: `cA6` has more tokens but
fewer characters than `cB6`; `cC6` and `cD6` tie on both length measures with
different scores. -/
def cA6 : Candidate := ⟨"aa bb cc", 1 / 10⟩

/-- Nine characters, two tokens. -/
def cB6 : Candidate := ⟨"aaaaaa bb", 1 / 10⟩

/-- Five characters, two tokens, low score. -/
def cC6 : Candidate := ⟨"dd ee", 1 / 10⟩

/-- Five characters, two tokens, high score. -/
def cD6 : Candidate := ⟨"ff gg", 9 / 10⟩

/-- Two candidates with identical coverage and different scores. -/
def candsTie : List Candidate := [⟨"xx yy", 1 / 10⟩, ⟨"zz ww", 9 / 10⟩]

/-- Identical presence vectors for `candsTie` over one sample. -/
def vecsTie : List (List Bool) := [[true], [true]]

/-- A long low-score candidate and a short high-score one contained in it. -/
def candsSub : List Candidate := [⟨"aa bb", 1⟩, ⟨"aa bb cc dd", 1 / 10⟩]

/-- The invariant carried by the argmax loop `pickAux` after the indices
below `k` have been processed: either nothing was picked and every eligible
index so far has zero new hits, or the pick is the first eligible index
attaining the (positive) running maximum. -/
def PickInv (vecs : List (List Bool)) (skip : List Nat) (uncov : List Bool)
    (k : Nat) : Option Nat × Nat → Prop
  | (none, m) => m = 0 ∧
      ∀ j, j < k → skip.contains j = false → newHits uncov (vecs.getD j []) = 0
  | (some i, m) => i < k ∧ skip.contains i = false ∧
      m = newHits uncov (vecs.getD i []) ∧ 0 < m ∧
      (∀ j, j < i → skip.contains j = false →
        newHits uncov (vecs.getD j []) < m) ∧
      (∀ j, j < k → skip.contains j = false →
        newHits uncov (vecs.getD j []) ≤ m)

/-- The subsumption invariant of spec §8 for a candidate list: whenever a
shorter surviving candidate is a substring of a longer surviving one, the
longer one scores below 95% of the shorter one's score. -/
def SubInv (l : List Candidate) : Prop :=
  ∀ A ∈ l, ∀ B ∈ l, B.text.length < A.text.length →
    substrB B.text A.text = true → A.score < 95 / 100 * B.score

end YaraGen

namespace YaraGen

/-! Theorems. -/

theorem coverLoop_length (vecs : List (List Bool)) :
    ∀ (fuel : Nat) (covered : List Bool) (sel : List Nat),
      (coverLoop vecs fuel covered sel).length ≤ sel.length + fuel := by
  intro fuel
  induction fuel with
  | zero => intro covered sel; simp [coverLoop]
  | succ n ih =>
    intro covered sel
    rw [coverLoop]
    split
    · omega
    · split
      · omega
      · split
        · omega
        · calc (coverLoop vecs n (zipOr covered (vecs.getD _ [])) (sel ++ [_])).length
              ≤ (sel ++ [_]).length + n := ih _ _
            _ = sel.length + (n + 1) := by simp; omega

theorem greedySetCover_length (cands : List Candidate)
    (vecs : List (List Bool)) (totalSamples : Nat) :
    (greedySetCover cands vecs totalSamples).length ≤ 50 := by
  unfold greedySetCover
  calc ((coverLoop vecs 50 (List.replicate totalSamples false) []).filterMap
          (fun i => cands.get? i)).length
      ≤ (coverLoop vecs 50 (List.replicate totalSamples false) []).length :=
        List.length_filterMap_le _ _
    _ ≤ ([] : List Nat).length + 50 := coverLoop_length _ _ _ _
    _ = 50 := rfl

/-- C2 amended.  The engine returns at most 50 rules — the hard-coded
`MAX_RULES` cap of `_greedy_set_cover` — for every configuration and every
input; the configured `max_rules_per_run` is never consulted (it coincides
with the bound only at its default value). -/
theorem C2_rule_cap (cfg : NgramConfig) (adv ben : List TextSample) :
    (extract cfg adv ben).length ≤ 50 := by
  rw [extract.eq_def]
  cases adv with
  | nil => simp
  | cons a rest =>
    dsimp only
    split
    · simp
    · split
      · simp
      · split
        · simp
        · rw [List.length_map]
          exact greedySetCover_length _ _ _

/-- C1.  The spec (and the docstring of `NgramExtractor.extract` itself)
states that an empty adversarial sequence is a fatal error ("Raises
ValueError: If the adversarial dataset is empty"); the code instead logs a
warning and returns the empty rule list.  This theorem evaluates the engine
at the failing input: for every configuration and every benign input, an
empty adversarial input yields a normal (empty) result, not an error. -/
theorem C1_empty_adv_returns_list (cfg : NgramConfig) (ben : List TextSample) :
    extract cfg [] ben = [] := rfl

/-- C2 counterexample.  With `max_rules_per_run = 1` the engine still returns
two rules: the configured cap is never consulted (`_greedy_set_cover` uses
the hard-coded `MAX_RULES = 50`). -/
theorem C2_counterexample :
    cfgCap1.max_rules_per_run = 1 ∧ (extract cfgCap1 advTwo []).length = 2 :=
  ⟨rfl, by with_unfolding_all decide⟩

/-- C3 counterexample.  With `min_document_frequency = 9/10` configured, the
phrase `"aa bb cc"` still reaches scoring although its adversarial document
frequency is only `1/2`: candidate generation uses the hard-coded
`min_df = 0.01`, not the configured value. -/
theorem C3_counterexample :
    "aa bb cc" ∈ featureNames cfgFreq90.min_ngram_length
      cfgFreq90.max_ngram_length advTwoTexts ∧
    advDocFreq cfgFreq90.min_ngram_length cfgFreq90.max_ngram_length
      advTwoTexts "aa bb cc" = 1 / 2 ∧
    advDocFreq cfgFreq90.min_ngram_length cfgFreq90.max_ngram_length
      advTwoTexts "aa bb cc" < cfgFreq90.min_document_frequency :=
  ⟨by with_unfolding_all decide, by with_unfolding_all decide,
    by with_unfolding_all decide⟩

/-- C6 counterexample.  The subsumption filter's sort key is the character
length of the phrase text, not `token_length`, and length ties are not broken
by score: `cB6` (2 tokens, 9 characters) is placed before `cA6` (3 tokens,
8 characters), and the equal-length pair `cC6`/`cD6` keeps its input order
although `cD6` has the higher score. -/
theorem C6_counterexample :
    sortByLenDesc [cA6, cB6, cC6, cD6] = [cB6, cA6, cC6, cD6] ∧
    tokenCount cA6.text = 3 ∧ tokenCount cB6.text = 2 ∧
    cC6.text.length = cD6.text.length ∧
    tokenCount cC6.text = tokenCount cD6.text ∧ cC6.score < cD6.score :=
  ⟨rfl, rfl, rfl, rfl, rfl, by with_unfolding_all decide⟩

/-- C7 counterexample.  Two candidates with identical presence vectors tie on
new coverage; the selector keeps the first one in list order even though the
second has the higher score, so ties are not broken by score. -/
theorem C7_counterexample :
    greedySetCover candsTie vecsTie 1 = [⟨"xx yy", 1 / 10⟩] ∧
    vecsTie.getD 0 [] = vecsTie.getD 1 [] ∧
    (candsTie.getD 0 ⟨"", 0⟩).score < (candsTie.getD 1 ⟨"", 0⟩).score :=
  ⟨by with_unfolding_all decide, rfl, by with_unfolding_all decide⟩

theorem mem_insertByLen {x c : Candidate} {l : List Candidate} :
    x ∈ insertByLen c l ↔ x = c ∨ x ∈ l := by
  induction l with
  | nil => simp [insertByLen]
  | cons y ys ih =>
    rw [insertByLen]
    split
    · simp only [List.mem_cons, ih]
      tauto
    · simp only [List.mem_cons]

theorem sorted_insertByLen {c : Candidate} {l : List Candidate}
    (h : l.Pairwise (fun a b => b.text.length ≤ a.text.length)) :
    (insertByLen c l).Pairwise (fun a b => b.text.length ≤ a.text.length) := by
  induction l with
  | nil => simp [insertByLen]
  | cons y ys ih =>
    rw [insertByLen]
    rcases List.pairwise_cons.mp h with ⟨hy, hys⟩
    split
    · refine List.pairwise_cons.mpr ⟨?_, ih hys⟩
      intro z hz
      rcases mem_insertByLen.mp hz with rfl | hz
      · omega
      · exact hy z hz
    · refine List.pairwise_cons.mpr ⟨?_, h⟩
      intro z hz
      rcases List.mem_cons.mp hz with rfl | hz
      · omega
      · have := hy z hz
        omega

theorem sorted_sortByLenDesc (l : List Candidate) :
    (sortByLenDesc l).Pairwise (fun a b => b.text.length ≤ a.text.length) := by
  induction l with
  | nil => simp [sortByLenDesc]
  | cons c cs ih => exact sorted_insertByLen ih

theorem filter_insertByLen (c : Candidate) (l : List Candidate) (n : Nat) :
    (insertByLen c l).filter (fun x => x.text.length == n) =
      (if c.text.length = n then [c] else []) ++
        l.filter (fun x => x.text.length == n) := by
  induction l with
  | nil =>
    simp only [insertByLen, List.filter]
    split
    · simp_all
    · simp_all
  | cons y ys ih =>
    rw [insertByLen]
    split
    · rename_i hlen
      by_cases hy : y.text.length = n
      · have hc : ¬ c.text.length = n := by omega
        simp only [List.filter_cons, ih, hc, if_false, beq_iff_eq, hy, if_true]
        simp
      · simp only [List.filter_cons, ih, beq_iff_eq, hy, if_false]
    · by_cases hc : c.text.length = n
      · simp [List.filter_cons, hc]
      · simp [List.filter_cons, hc]

theorem filter_sortByLenDesc (l : List Candidate) (n : Nat) :
    (sortByLenDesc l).filter (fun x => x.text.length == n) =
      l.filter (fun x => x.text.length == n) := by
  induction l with
  | nil => rfl
  | cons c cs ih =>
    rw [sortByLenDesc, filter_insertByLen, ih, List.filter_cons]
    by_cases hc : c.text.length = n
    · simp [hc]
    · simp [hc]

/-- C6 amended.  The subsumption filter sorts by descending **character**
length of the phrase text only (not `token_length`), via a stable sort: for
every length, the subsequence of candidates of that length is exactly the one
of the input, in input (vocabulary/insertion) order; neither the score nor
the token count takes part in the key. -/
theorem C6_sort_by_char_length (l : List Candidate) :
    (sortByLenDesc l).Pairwise (fun a b => b.text.length ≤ a.text.length) ∧
    ∀ n : Nat, (sortByLenDesc l).filter (fun x => x.text.length == n) =
      l.filter (fun x => x.text.length == n) :=
  ⟨sorted_sortByLenDesc l, fun n => filter_sortByLenDesc l n⟩

theorem subInv_append {kept : List Candidate} {c : Candidate}
    (hkept : SubInv kept)
    (hnot : ∀ k ∈ kept, substrB c.text k.text = true →
      ¬ c.score * (95 / 100) ≤ k.score)
    (hlong : ∀ k ∈ kept, c.text.length ≤ k.text.length) :
    SubInv (kept ++ [c]) := by
  intro A hA0 B hB0 hlen hsub
  rcases List.mem_append.mp hA0 with hA | hA <;>
    rcases List.mem_append.mp hB0 with hB | hB <;>
    clear hA0 hB0
  · exact hkept A hA B hB hlen hsub
  · simp only [List.mem_singleton] at hB
    subst hB
    have h2 := hnot A hA hsub
    rw [not_le] at h2
    calc A.score < B.score * (95 / 100) := h2
      _ = 95 / 100 * B.score := by ring
  · simp only [List.mem_singleton] at hA
    subst hA
    have := hlong B hB
    omega
  · simp only [List.mem_singleton] at hA hB
    subst hA; subst hB
    exact absurd hlen (lt_irrefl _)

theorem filterSubsumedAux_inv :
    ∀ (pending kept : List Candidate),
      (∀ p ∈ pending, ∀ k ∈ kept, p.text.length ≤ k.text.length) →
      pending.Pairwise (fun a b => b.text.length ≤ a.text.length) →
      SubInv kept → SubInv (filterSubsumedAux pending kept) := by
  intro pending
  induction pending with
  | nil =>
    intro kept _ _ hkept
    simpa [filterSubsumedAux] using hkept
  | cons c cs ih =>
    intro kept hord hsort hkept
    rw [filterSubsumedAux]
    rcases List.pairwise_cons.mp hsort with ⟨hc, hcs⟩
    split
    · exact ih kept (fun p hp k hk => hord p (List.mem_cons_of_mem _ hp) k hk)
        hcs hkept
    · rename_i hsub
      apply ih (kept ++ [c]) ?_ hcs ?_
      · intro p hp k hk
        rcases List.mem_append.mp hk with hk | hk
        · exact hord p (List.mem_cons_of_mem _ hp) k hk
        · simp only [List.mem_singleton] at hk
          subst hk
          exact hc p hp
      · refine subInv_append hkept ?_
          (fun k hk => hord c (List.mem_cons_self _ _) k hk)
        intro k hk hs hle
        apply hsub
        unfold subsumedBy
        rw [List.any_eq_true]
        refine ⟨k, hk, ?_⟩
        rw [Bool.and_eq_true, hs, decide_eq_true_eq]
        exact ⟨rfl, hle⟩

/-- C5.  Subsumption invariant: for any two candidates surviving
`_filter_subsumed` where the shorter one's text is a contiguous substring of
the longer one's text, the longer one's score is strictly below 95% of the
shorter one's score — equivalently, a shorter candidate is dropped exactly
when an already-accepted longer candidate contains it with a score of at
least 95% of its own. -/
theorem C5_subsumption_invariant (l : List Candidate) (A B : Candidate)
    (hA : A ∈ filterSubsumed l) (hB : B ∈ filterSubsumed l)
    (hlen : B.text.length < A.text.length)
    (hsub : substrB B.text A.text = true) :
    A.score < 95 / 100 * B.score := by
  refine filterSubsumedAux_inv (sortByLenDesc l) []
    (by intro p _ k hk; exact absurd hk (List.not_mem_nil k))
    (sorted_sortByLenDesc l)
    (by intro A hA; exact absurd hA (List.not_mem_nil A))
    A ?_ B ?_ hlen hsub
  · exact hA
  · exact hB

/-- C5 witness: in `candsSub` the long low-scoring phrase and the short
high-scoring phrase it contains both survive, and the invariant holds at
them. -/
theorem C5_subsumption_invariant_witness :
    (⟨"aa bb cc dd", 1 / 10⟩ : Candidate).score <
      95 / 100 * (⟨"aa bb", 1⟩ : Candidate).score :=
  C5_subsumption_invariant candsSub ⟨"aa bb cc dd", 1 / 10⟩ ⟨"aa bb", 1⟩
    (by with_unfolding_all decide) (by with_unfolding_all decide)
    (by decide) (by decide)

theorem pickInv_skip {vecs : List (List Bool)} {skip : List Nat}
    {uncov : List Bool} {k : Nat} {acc : Option Nat × Nat}
    (h : PickInv vecs skip uncov k acc) (hk : skip.contains k = true) :
    PickInv vecs skip uncov (k + 1) acc := by
  match acc with
  | (none, m) =>
    obtain ⟨h1, h2⟩ := h
    refine ⟨h1, fun j hj hok => ?_⟩
    by_cases hjk : j = k
    · subst hjk; rw [hok] at hk; cases hk
    · exact h2 j (by omega) hok
  | (some i, m) =>
    obtain ⟨h1, h2, h3, h4, h5, h6⟩ := h
    refine ⟨by omega, h2, h3, h4, h5, fun j hj hok => ?_⟩
    by_cases hjk : j = k
    · subst hjk; rw [hok] at hk; cases hk
    · exact h6 j (by omega) hok

theorem pickInv_keep {vecs : List (List Bool)} {skip : List Nat}
    {uncov : List Bool} {k : Nat} {acc : Option Nat × Nat}
    (h : PickInv vecs skip uncov k acc) (hk : skip.contains k = false)
    (hle : newHits uncov (vecs.getD k []) ≤ acc.2) :
    PickInv vecs skip uncov (k + 1) acc := by
  match acc with
  | (none, m) =>
    obtain ⟨h1, h2⟩ := h
    subst h1
    refine ⟨rfl, fun j hj hok => ?_⟩
    by_cases hjk : j = k
    · subst hjk; omega
    · exact h2 j (by omega) hok
  | (some i, m) =>
    obtain ⟨h1, h2, h3, h4, h5, h6⟩ := h
    refine ⟨by omega, h2, h3, h4, h5, fun j hj hok => ?_⟩
    by_cases hjk : j = k
    · subst hjk; exact hle
    · exact h6 j (by omega) hok

theorem pickInv_take {vecs : List (List Bool)} {skip : List Nat}
    {uncov : List Bool} {k : Nat} {acc : Option Nat × Nat}
    (h : PickInv vecs skip uncov k acc) (hk : skip.contains k = false)
    (hlt : acc.2 < newHits uncov (vecs.getD k [])) :
    PickInv vecs skip uncov (k + 1)
      (some k, newHits uncov (vecs.getD k [])) := by
  match acc with
  | (none, m) =>
    obtain ⟨h1, h2⟩ := h
    subst h1
    refine ⟨by omega, hk, rfl, by omega, fun j hj hok => ?_, fun j hj hok => ?_⟩
    · have := h2 j hj hok; omega
    · by_cases hjk : j = k
      · subst hjk; omega
      · have := h2 j (by omega) hok; omega
  | (some i, m) =>
    obtain ⟨h1, h2, h3, h4, h5, h6⟩ := h
    refine ⟨by omega, hk, rfl, by omega, fun j hj hok => ?_, fun j hj hok => ?_⟩
    · have := h6 j (by omega) hok; omega
    · by_cases hjk : j = k
      · subst hjk; omega
      · have := h6 j (by omega) hok; omega

theorem pickAux_inv (vecs : List (List Bool)) (skip : List Nat)
    (uncov : List Bool) :
    ∀ (n k : Nat) (acc : Option Nat × Nat),
      PickInv vecs skip uncov k acc →
      PickInv vecs skip uncov (k + n)
        (pickAux vecs skip uncov (List.range' k n) acc) := by
  intro n
  induction n with
  | zero =>
    intro k acc h
    simpa [pickAux] using h
  | succ m ih =>
    intro k acc h
    have hrange : List.range' k (m + 1) = k :: List.range' (k + 1) m :=
      List.range'_succ k m 1
    rw [hrange, pickAux]
    have harith : k + 1 + m = k + (m + 1) := by omega
    split
    · rename_i hk
      have h' := pickInv_skip h hk
      have := ih (k + 1) acc h'
      rwa [harith] at this
    · rename_i hk
      rw [Bool.not_eq_true] at hk
      split
      · rename_i hlt
        have h' := pickInv_take h hk hlt
        have := ih (k + 1) _ h'
        rwa [harith] at this
      · rename_i hge
        rw [not_lt] at hge
        have h' := pickInv_keep h hk hge
        have := ih (k + 1) acc h'
        rwa [harith] at this

theorem pickBest_spec {vecs : List (List Bool)} {skip : List Nat}
    {uncov : List Bool} {i m : Nat}
    (h : pickBest vecs skip uncov = (some i, m)) :
    i < vecs.length ∧ skip.contains i = false ∧
    m = newHits uncov (vecs.getD i []) ∧ 0 < m ∧
    (∀ j, j < i → skip.contains j = false →
      newHits uncov (vecs.getD j []) < m) ∧
    (∀ j, j < vecs.length → skip.contains j = false →
      newHits uncov (vecs.getD j []) ≤ m) := by
  have h0 : PickInv vecs skip uncov 0 (none, 0) :=
    ⟨rfl, fun j hj _ => absurd hj (by omega)⟩
  have hinv := pickAux_inv vecs skip uncov vecs.length 0 (none, 0) h0
  rw [← List.range_eq_range'] at hinv
  rw [zero_add] at hinv
  have hb : pickBest vecs skip uncov =
      pickAux vecs skip uncov (List.range vecs.length) (none, 0) := rfl
  rw [← hb, h] at hinv
  exact hinv

/-- C7 amended.  Each selector round picks, among the not-yet-selected
candidates, the one with the largest count of newly covered samples, and a
tie is resolved by the **smallest index** in the candidate-list order (the
post-subsumption order), not by score: the winner strictly beats every
eligible earlier index and is only tied-or-better than later ones.  (The
round cap is the hard-coded 50, and a round with zero best gain stops the
selection.) -/
theorem C7_first_argmax (vecs : List (List Bool)) (skip : List Nat)
    (uncov : List Bool) (i m : Nat)
    (h : pickBest vecs skip uncov = (some i, m)) :
    i < vecs.length ∧ skip.contains i = false ∧
    m = newHits uncov (vecs.getD i []) ∧ 0 < m ∧
    (∀ j, j < i → skip.contains j = false →
      newHits uncov (vecs.getD j []) < m) ∧
    (∀ j, j < vecs.length → skip.contains j = false →
      newHits uncov (vecs.getD j []) ≤ m) :=
  pickBest_spec h

/-- C7 witness: in the tied two-candidate instance the selector's argmax is
index 0 with one new hit, and the characterization holds there. -/
theorem C7_first_argmax_witness :
    0 < vecsTie.length ∧ ([] : List Nat).contains 0 = false ∧
    1 = newHits [true] (vecsTie.getD 0 []) ∧ 0 < 1 ∧
    (∀ j, j < 0 → ([] : List Nat).contains j = false →
      newHits [true] (vecsTie.getD j []) < 1) ∧
    (∀ j, j < vecsTie.length → ([] : List Nat).contains j = false →
      newHits [true] (vecsTie.getD j []) ≤ 1) :=
  C7_first_argmax vecsTie [] [true] 0 1 rfl

theorem count_zipOr :
    ∀ (a v : List Bool), v.length = a.length →
      (zipOr a v).count true =
        a.count true + newHits (a.map (fun b => !b)) v := by
  intro a
  induction a with
  | nil =>
    intro v hv
    cases v with
    | nil => rfl
    | cons y ys => simp at hv
  | cons x xs ih =>
    intro v hv
    cases v with
    | nil => simp at hv
    | cons y ys =>
      have hlen : ys.length = xs.length := by simpa using hv
      have := ih ys hlen
      simp only [zipOr, newHits, List.map, List.zipWith, List.count_cons] at *
      cases x <;> cases y <;> simp <;> omega

/-- C8.  Coverage monotonicity: marking a round's winner as covered never
decreases the number of covered samples (for any presence vector of the
right length), and on every round where the selector commits a candidate —
that is, `pickBest` returns a winner — the covered count strictly
increases. -/
theorem C8_coverage_monotone (vecs : List (List Bool)) (covered : List Bool)
    (sel : List Nat) (i m : Nat)
    (hpick : pickBest vecs sel (covered.map (fun b => !b)) = (some i, m))
    (hlen : (vecs.getD i []).length = covered.length) :
    covered.count true < (zipOr covered (vecs.getD i [])).count true ∧
    ∀ v : List Bool, v.length = covered.length →
      covered.count true ≤ (zipOr covered v).count true := by
  have hspec := pickBest_spec hpick
  constructor
  · rw [count_zipOr _ _ hlen]
    have hm := hspec.2.2.1
    have hpos := hspec.2.2.2.1
    omega
  · intro v hv
    rw [count_zipOr _ _ hv]
    omega

/-- C8 witness: one uncovered sample, one candidate covering it; the commit
raises the covered count from 0 to 1. -/
theorem C8_coverage_monotone_witness :
    ([false] : List Bool).count true <
      (zipOr [false] (([[true]] : List (List Bool)).getD 0 [])).count true ∧
    ∀ v : List Bool, v.length = ([false] : List Bool).length →
      ([false] : List Bool).count true ≤ (zipOr [false] v).count true :=
  C8_coverage_monotone [[true]] [false] [] 0 1 rfl rfl

theorem mem_insertStr {x s : String} {l : List String} :
    x ∈ insertStr s l → x = s ∨ x ∈ l := by
  induction l with
  | nil =>
    intro h
    simp only [insertStr, List.mem_singleton] at h
    exact Or.inl h
  | cons y ys ih =>
    rw [insertStr]
    split
    · intro h; exact Or.inr h
    · split
      · intro h
        rcases List.mem_cons.mp h with h | h
        · exact Or.inl h
        · exact Or.inr h
      · intro h
        rcases List.mem_cons.mp h with h | h
        · exact Or.inr (h ▸ List.mem_cons_self y ys)
        · rcases ih h with h | h
          · exact Or.inl h
          · exact Or.inr (List.mem_cons_of_mem y h)

theorem mem_foldl_insertStr :
    ∀ (l acc : List String) (x : String),
      x ∈ l.foldl (fun acc s => insertStr s acc) acc → x ∈ acc ∨ x ∈ l := by
  intro l
  induction l with
  | nil =>
    intro acc x h
    exact Or.inl (by simpa using h)
  | cons y ys ih =>
    intro acc x h
    rcases ih (insertStr y acc) x h with h | h
    · rcases mem_insertStr h with rfl | h
      · exact Or.inr (List.mem_cons_self x ys)
      · exact Or.inl h
    · exact Or.inr (List.mem_cons_of_mem y h)

theorem mem_sortedVocab {lo hi : Nat} {docs : List String} {p : String}
    (h : p ∈ sortedVocab lo hi docs) :
    ∃ d ∈ docs, (ngramsOf lo hi d).contains p = true := by
  unfold sortedVocab at h
  rcases mem_foldl_insertStr _ _ _ h with h | h
  · exact absurd h (List.not_mem_nil p)
  · rcases List.mem_flatMap.mp h with ⟨d, hd, hp⟩
    exact ⟨d, hd, by simpa using hp⟩

theorem docCount_pos {lo hi : Nat} {docs : List String} {p : String}
    (h : ∃ d ∈ docs, (ngramsOf lo hi d).contains p = true) :
    0 < docCount lo hi docs p := by
  obtain ⟨d, hd, hp⟩ := h
  exact List.length_pos_of_mem (List.mem_filter.mpr ⟨hd, hp⟩)

/-- C3 amended.  Candidate generation drops phrases whose adversarial
document frequency is below the **hard-coded** `min_df = 0.01` of the
vectorizer — the configured `min_document_frequency` is not consulted — so
every phrase that reaches scoring has adversarial document frequency at
least 1/100. -/
theorem C3_min_df_floor (lo hi : Nat) (docs : List String) (p : String)
    (h : p ∈ featureNames lo hi docs) :
    (1 : ℚ) / 100 ≤ advDocFreq lo hi docs p := by
  unfold featureNames at h
  rcases List.mem_filter.mp h with ⟨hvocab, hcond⟩
  rw [decide_eq_true_eq] at hcond
  have hpos := docCount_pos (mem_sortedVocab hvocab)
  have hlen : 0 < docs.length := by
    obtain ⟨d, hd, _⟩ := mem_sortedVocab hvocab
    exact List.length_pos_of_mem hd
  unfold advDocFreq
  rw [le_div_iff₀ (by exact_mod_cast hlen)]
  exact hcond

/-- C3 witness: the phrase `"aa bb cc"` reaches scoring on the two-document
corpus and its adversarial document frequency (1/2) clears the 1% floor. -/
theorem C3_min_df_floor_witness :
    "aa bb cc" ∈ featureNames 3 3 advTwoTexts ∧
    (1 : ℚ) / 100 ≤ advDocFreq 3 3 advTwoTexts "aa bb cc" :=
  ⟨by with_unfolding_all decide,
   C3_min_df_floor 3 3 advTwoTexts "aa bb cc" (by with_unfolding_all decide)⟩

/-- C4.  Differential scoring: every candidate's score equals
`adversarial_doc_freq − benign_penalty_weight × benign_doc_freq` with
`benign_doc_freq = (# benign docs containing phrase) / max(n_benign, 1)`;
in particular, with no benign samples the score reduces to the adversarial
document frequency. -/
theorem C4_score_formula (cfg : NgramConfig) (advTexts benTexts : List String)
    (c : Candidate) (hc : c ∈ candidatesOf cfg advTexts benTexts) :
    c.score =
      advDocFreq cfg.min_ngram_length cfg.max_ngram_length advTexts c.text -
        cfg.benign_penalty_weight *
          benDocFreq cfg.min_ngram_length cfg.max_ngram_length benTexts c.text ∧
    (benTexts = [] →
      c.score =
        advDocFreq cfg.min_ngram_length cfg.max_ngram_length advTexts c.text) := by
  unfold candidatesOf at hc
  rcases List.mem_filterMap.mp hc with ⟨p, hp, heq⟩
  dsimp only at heq
  split at heq
  case isFalse => cases heq
  case isTrue hthr =>
    cases heq
    dsimp only
    cases benTexts with
    | nil =>
      constructor
      · unfold scoreOf advDocFreq benDocFreq docCount
        norm_num
      · intro _
        unfold scoreOf advDocFreq docCount
        norm_num
    | cons b bs =>
      refine ⟨?_, fun hcontra => by cases hcontra⟩
      unfold scoreOf advDocFreq benDocFreq
      dsimp only
      have hemp : (b :: bs).isEmpty = false := rfl
      rw [hemp]
      have hone : (1 : ℚ) ≤ ((b :: bs).length : ℚ) := by
        exact_mod_cast Nat.succ_le_succ (Nat.zero_le bs.length)
      rw [max_eq_left hone]
      norm_num

/-- C4 witness: the candidate `"aa bb cc"` with one benign document
containing it scores `1/2 − (1/2)·1 = 0`, matching the formula. -/
theorem C4_score_formula_witness :
    (⟨"aa bb cc", 0⟩ : Candidate) ∈
      candidatesOf cfgHalfPen advTwoTexts ["aa bb cc"] ∧
    ((⟨"aa bb cc", 0⟩ : Candidate).score =
      advDocFreq cfgHalfPen.min_ngram_length cfgHalfPen.max_ngram_length
          advTwoTexts (⟨"aa bb cc", 0⟩ : Candidate).text -
        cfgHalfPen.benign_penalty_weight *
          benDocFreq cfgHalfPen.min_ngram_length cfgHalfPen.max_ngram_length
            ["aa bb cc"] (⟨"aa bb cc", 0⟩ : Candidate).text ∧
    ((["aa bb cc"] : List String) = [] →
      (⟨"aa bb cc", 0⟩ : Candidate).score =
        advDocFreq cfgHalfPen.min_ngram_length cfgHalfPen.max_ngram_length
          advTwoTexts (⟨"aa bb cc", 0⟩ : Candidate).text)) :=
  ⟨by with_unfolding_all decide,
   C4_score_formula cfgHalfPen advTwoTexts ["aa bb cc"] ⟨"aa bb cc", 0⟩
     (by with_unfolding_all decide)⟩

/-- C9.  Empty result is not an error: for every non-empty adversarial input
on which no candidate survives (no phrase clears the hard frequency floor, or
every score falls below the threshold), the engine returns the well-formed
empty rule list — in the embedding `extract` is a total function, so no
exception is possible. -/
theorem C9_empty_result (cfg : NgramConfig) (adv ben : List TextSample)
    (hne : adv ≠ [])
    (hcand : candidatesOf cfg (adv.map (fun s => s.text))
      (ben.map (fun s => s.text)) = []) :
    extract cfg adv ben = [] := by
  cases adv with
  | nil => exact absurd rfl hne
  | cons a rest =>
    rw [extract.eq_def]
    dsimp only
    rw [if_neg (by simp)]
    split
    · rfl
    · rw [hcand]
      rfl

/-- C9 witness: the single adversarial phrase also occurs in the benign
document with penalty weight 1, so every score is ≤ 0 < threshold and the
result is the empty rule list. -/
theorem C9_empty_result_witness : extract cfgCap1 advOne benCover = [] :=
  C9_empty_result cfgCap1 advOne benCover (by decide)
    (by with_unfolding_all decide)

/-- C10.  Provenance: every rule returned on a non-empty adversarial input
carries as its source identifier the `source` field of the **first**
adversarial sample, regardless of which samples contain the rule's phrase
(`source_name = adv_samples[0].source`; `"unknown_source"` could only arise
with no samples, in which case no rules are produced at all). -/
theorem C10_provenance (cfg : NgramConfig) (a : TextSample)
    (rest ben : List TextSample) (r : GeneratedRule)
    (hr : r ∈ extract cfg (a :: rest) ben) : r.source = a.source := by
  rw [extract.eq_def] at hr
  dsimp only at hr
  rw [if_neg (by simp)] at hr
  split at hr
  · exact absurd hr (List.not_mem_nil r)
  · split at hr
    · exact absurd hr (List.not_mem_nil r)
    · rcases List.mem_map.mp hr with ⟨c, _, rfl⟩
      rfl

/-- C10 witness: on `advTwo` (first sample source `"s1"`) the rule built
from `"aa bb cc"` is returned and carries source `"s1"`. -/
theorem C10_provenance_witness :
    build_from_ngram "aa bb cc" (1 / 2) "s1" none ∈ extract cfgCap1 advTwo [] ∧
    (build_from_ngram "aa bb cc" (1 / 2) "s1" none).source = "s1" :=
  ⟨by with_unfolding_all decide,
   C10_provenance cfgCap1 ⟨"aa bb cc", "s1"⟩ [⟨"dd ee ff", "s2"⟩] []
     (build_from_ngram "aa bb cc" (1 / 2) "s1" none)
     (by with_unfolding_all decide)⟩

end YaraGen
